import Mathlib

/-!
Verification of the fast 3-SAT heuristic solver.

The development shallowly embeds the solver: literals are integers,
clauses are integer lists (for the 2-SAT oracle) or integer triples
(for the 3-SAT front end), the two index dictionaries are association
lists in insertion order, and Python sets are duplicate-free lists
(insertion adds at the end only when the element is absent).
-/

namespace FastThreeSAT

abbrev Pair := Int × Int
abbrev Clause := List Int
abbrev Clause3 := Int × Int × Int

/-- `normalize_tuple` on a 2-tuple: store the smaller integer first. -/
def normPair (x y : Int) : Pair := if x < y then (x, y) else (y, x)

/-- Python `set.add`: append the element only when it is absent. -/
def setAdd {α : Type} [DecidableEq α] (l : List α) (x : α) : List α :=
  if x ∈ l then l else l ++ [x]

/-- Dictionary lookup in `sets_fwd`, with `[]` for an absent key. -/
def lookupF : List (Int × List Pair) → Int → List Pair
  | [], _ => []
  | (k', ps) :: rest, k => if k' = k then ps else lookupF rest k

/-- Python `k in sets_fwd` (dictionary key membership). -/
def keyMemF : List (Int × List Pair) → Int → Bool
  | [], _ => false
  | (k', _) :: rest, k => k' = k || keyMemF rest k

/-- `sets_fwd[k].add(p)`, creating the entry when the key is absent. -/
def fwdAdd : List (Int × List Pair) → Int → Pair → List (Int × List Pair)
  | [], k, p => [(k, [p])]
  | (k', ps) :: rest, k, p =>
    if k' = k then (k', setAdd ps p) :: rest else (k', ps) :: fwdAdd rest k p

/-- Dictionary lookup in `sets_bkw`. -/
def lookupB : List (Pair × List Int) → Pair → Option (List Int)
  | [], _ => none
  | (k', ws) :: rest, k => if k' = k then some ws else lookupB rest k

/-- The backward-index update of `append`: only when the key is absent is
a fresh entry created and the witness stored; an existing key is left
completely unchanged (the `add` sits inside the `not in` branch). -/
def bkwAdd (m : List (Pair × List Int)) (k : Pair) (w : Int) : List (Pair × List Int) :=
  match lookupB m k with
  | some _ => m
  | none => m ++ [(k, [w])]

/-- The mutable state of a `FastThreeSATSolver` instance: the two indices
of its `TwoSATSets` plus the three unsat accumulators. -/
structure SolverState where
  sets_fwd : List (Int × List Pair)
  sets_bkw : List (Pair × List Int)
  unsat_pos : List Int
  unsat_neg : List Int
  unsat_tup : List Pair
  deriving DecidableEq, Repr

/-- The state produced by `FastThreeSATSolver.__init__`. -/
def initState : SolverState := ⟨[], [], [], [], []⟩

/-- `TwoSATSets.append` on a 3-clause `(a, b, c)`. -/
def appendC (s : SolverState) (t : Clause3) : SolverState :=
  let a := t.1
  let b := t.2.1
  let c := t.2.2
  let f1 := fwdAdd s.sets_fwd (-a) (normPair b c)
  let f2 := fwdAdd f1 (-b) (normPair a c)
  let f3 := fwdAdd f2 (-c) (normPair a b)
  let g1 := bkwAdd s.sets_bkw (normPair (-b) (-c)) a
  let g2 := bkwAdd g1 (normPair (-a) (-b)) c
  let g3 := bkwAdd g2 (normPair (-a) (-c)) b
  { s with sets_fwd := f3, sets_bkw := g3 }

/-- Implication-graph edges contributed by one clause: a unit clause `(x)`
yields `¬x → x` and the self-loop `x → x`; a 2-clause `(x, y)` yields
`¬x → y` and `¬y → x`; every other arity contributes nothing. -/
def clauseEdges : Clause → List (Int × Int)
  | [x] => [(-x, x), (x, x)]
  | [x, y] => [(-x, y), (-y, x)]
  | _ => []

/-- All edges of the implication graph, in clause order. -/
def edgesOf : List Clause → List (Int × Int)
  | [] => []
  | c :: cs => clauseEdges c ++ edgesOf cs

/-- The nodes of the implication graph (each edge contributes both
endpoints; duplicates removed). -/
def nodesOf (cs : List Clause) : List Int :=
  ((edgesOf cs).map Prod.fst ++ (edgesOf cs).map Prod.snd).dedup

/-- One breadth pass of reachability: scan every edge once, appending the
target whenever the source is already reached and the target is not. -/
def reachStep (E : List (Int × Int)) (s : List Int) : List Int :=
  E.foldl (fun acc e => if e.1 ∈ acc ∧ ¬ e.2 ∈ acc then acc ++ [e.2] else acc) s

/-- Iterate `reachStep` until it fixes, with enough fuel that the
fixpoint is always attained (proved below). -/
def reachFix (E : List (Int × Int)) : Nat → List Int → List Int
  | 0, s => s
  | n + 1, s =>
    let s' := reachStep E s
    if s' = s then s else reachFix E n s'

/-- All literals reachable from `a`: the reflexive-transitive closure of
the edge relation, computed as a fixpoint of `reachStep`. -/
def reachList (E : List (Int × Int)) (a : Int) : List Int :=
  reachFix E (E.length + 1) [a]

/-- Executable reachability test. -/
def reachB (E : List (Int × Int)) (a b : Int) : Bool :=
  decide (b ∈ reachList E a)

/-- Two nodes lie in the same strongly connected component iff they are
mutually reachable. -/
def sameSCC (E : List (Int × Int)) (a b : Int) : Bool :=
  reachB E a b && reachB E b a

/-- `FastThreeSATSolver.two_sat`: build the implication graph and report
satisfiable unless some node and its negation are both present and lie
in the same strongly connected component. -/
def two_sat (cs : List Clause) : Bool :=
  let E := edgesOf cs
  let ns := nodesOf cs
  !(ns.any fun v => decide ((-v) ∈ ns) && sameSCC E v (-v))

/-- A 2-literal tuple read as a clause. -/
def pairClause (p : Pair) : Clause := [p.1, p.2]

/-- The first loop of `find_unsat`: for every forward-index entry whose
pair set is 2-SAT-unsatisfiable, record the key in `unsat_pos` (positive
key) or its absolute value in `unsat_neg` (negative key). -/
def stageA (fwd : List (Int × List Pair)) (pos neg : List Int) : List Int × List Int :=
  fwd.foldl
    (fun pn kv =>
      if two_sat (kv.2.map pairClause) then pn
      else if 0 < kv.1 then (setAdd pn.1 kv.1, pn.2) else (pn.1, setAdd pn.2 (-kv.1)))
    (pos, neg)

/-- The second loop of `find_unsat`: for every backward-index entry
`(k, witnesses)` and every witness `v` that is a forward-index key, run
the oracle on `[k] + sets_fwd[v]`; on unsatisfiability add the De Morgan
dual `(-k.2, -k.1)` of the key to `unsat_tup`. -/
def stageB (fwd : List (Int × List Pair)) (bkw : List (Pair × List Int))
    (tup : List Pair) : List Pair :=
  bkw.foldl
    (fun tup kv =>
      kv.2.foldl
        (fun tup v =>
          if keyMemF fwd v then
            (if two_sat (pairClause kv.1 :: (lookupF fwd v).map pairClause) then tup
             else setAdd tup (-kv.1.2, -kv.1.1))
          else tup)
        tup)
    tup

/-- The final oracle call of `find_unsat`: one unit clause `(-p)` per
invalidated positive variable, one unit clause `(n)` per invalidated
negative variable, plus all derived 2-clauses. -/
def stageC (pos neg : List Int) (tup : List Pair) : Bool :=
  two_sat (pos.map (fun p => [-p]) ++ neg.map (fun n => [n]) ++ tup.map pairClause)

/-- `TwoSATSets.find_unsat`: returns its boolean verdict (true means a
contradiction was detected) together with the updated instance state
(the accumulators are mutated in place in the source). -/
def find_unsat (s : SolverState) : Bool × SolverState :=
  let pn := stageA s.sets_fwd s.unsat_pos s.unsat_neg
  let tup := stageB s.sets_fwd s.sets_bkw s.unsat_tup
  (!(stageC pn.1 pn.2 tup),
   { s with unsat_pos := pn.1, unsat_neg := pn.2, unsat_tup := tup })

/-- `FastThreeSATSolver.solve` as a state transformer on an instance:
every clause is fed through `append` into the existing indices (there is
no reset), then `find_unsat` runs; the verdict is the negation of its
result (`true` = reported SAT). -/
def solveM (s : SolverState) (cs : List Clause3) : Bool × SolverState :=
  let s1 := cs.foldl appendC s
  let r := find_unsat s1
  (!r.1, r.2)

/-- `FastThreeSATSolver().solve(clauses)`: a solve call on a freshly
constructed instance, as in every documented run. -/
def solve (cs : List Clause3) : Bool := (solveM initState cs).1

/-- The index state built by feeding a clause list through `append` on a
fresh instance. -/
def buildState (cs : List Clause3) : SolverState := cs.foldl appendC initState

/-- Stage B as the specification sentence describes it (for comparison
with the source's `stageB`): for every backward entry `(k, witnesses)`
build one combined list — the key as a clause, then a unit clause `(v)`
for every witness `v`, then every pair of `sets_fwd[v]` for each witness
present as a forward key — run the oracle once on it, and on
unsatisfiability add `(-k.2, -k.1)` to `unsat_tup`. -/
def stageB_spec (fwd : List (Int × List Pair)) (bkw : List (Pair × List Int))
    (tup : List Pair) : List Pair :=
  bkw.foldl
    (fun tup kv =>
      let combined : List Clause :=
        pairClause kv.1 :: (kv.2.map (fun v => [v])
          ++ (kv.2.filter (fun v => keyMemF fwd v)).flatMap
              (fun v => (lookupF fwd v).map pairClause))
      if two_sat combined then tup else setAdd tup (-kv.1.2, -kv.1.1))
    tup

/-- The forward-index contribution of one 3-clause `(a, b, c)`:
key `-a` gains pair `norm(b,c)`, key `-b` gains `norm(a,c)`, key `-c`
gains `norm(a,b)`. -/
def contributesF (t : Clause3) (k : Int) (p : Pair) : Prop :=
  (k = -t.1 ∧ p = normPair t.2.1 t.2.2)
    ∨ (k = -t.2.1 ∧ p = normPair t.1 t.2.2)
    ∨ (k = -t.2.2 ∧ p = normPair t.1 t.2.1)

/-- The edge relation of the implication graph. -/
def EdgeRel (E : List (Int × Int)) (a b : Int) : Prop := (a, b) ∈ E

/-- Mathematical reachability along implication-graph edges. -/
def Reaches (E : List (Int × Int)) : Int → Int → Prop :=
  Relation.ReflTransGen (EdgeRel E)

/-- Truth of a literal under an assignment of the (positive) variables. -/
def LitSat (σ : Int → Bool) (l : Int) : Prop :=
  if 0 < l then σ l = true else σ (-l) = false

/-- `σ` satisfies every clause of the list. -/
def SatAssign (σ : Int → Bool) (cs : List Clause) : Prop :=
  ∀ c ∈ cs, ∃ l ∈ c, LitSat σ l

/-- Ground-truth satisfiability of a clause list (what brute-force
truth-table enumeration decides). -/
def TwoSatisfiable (cs : List Clause) : Prop := ∃ σ, SatAssign σ cs

/-- `σ` respects every implication edge. -/
def EdgeSat (σ : Int → Bool) (E : List (Int × Int)) : Prop :=
  ∀ e ∈ E, LitSat σ e.1 → LitSat σ e.2

/-- The literal `v` and its negation are both implication-graph nodes and
lie in the same strongly connected component (mutual reachability). -/
def BadVar (cs : List Clause) (v : Int) : Prop :=
  v ∈ nodesOf cs ∧ (-v) ∈ nodesOf cs
    ∧ Reaches (edgesOf cs) v (-v) ∧ Reaches (edgesOf cs) (-v) v

/-- The 10-clause list of the documented example block. -/
def exampleClauses10 : List Clause3 :=
  [(-4,-1,3), (-3,-2,-1), (-4,1,3), (-2,-1,4), (-4,-2,1),
   (1,2,4), (-1,2,3), (-4,-3,2), (-3,-1,4), (-2,1,4)]

/-- The 16-clause list of the documented SAT scenario. -/
def exampleClauses16 : List Clause3 :=
  [(-4,1,3), (-4,-3,-2), (-4,-3,-1), (-4,-2,3), (-3,1,4), (-3,-2,4),
   (-3,1,2), (-4,1,2), (-3,-2,-1), (-2,1,4), (1,3,4), (-4,-1,3),
   (-3,-1,2), (1,2,4), (-2,-1,4), (-2,3,4)]

/-! ### Basic properties of the set and dictionary operations -/

theorem setAdd_mem_self {α : Type} [DecidableEq α] (l : List α) (x : α) : x ∈ setAdd l x := by
  by_cases h : x ∈ l
  · rw [setAdd, if_pos h]; exact h
  · rw [setAdd, if_neg h]; simp

theorem mem_setAdd_of_mem {α : Type} [DecidableEq α] {l : List α} {y : α} (x : α)
    (h : y ∈ l) : y ∈ setAdd l x := by
  by_cases hx : x ∈ l
  · rw [setAdd, if_pos hx]; exact h
  · rw [setAdd, if_neg hx]; exact List.mem_append_left _ h

theorem setAdd_eq_of_mem {α : Type} [DecidableEq α] {l : List α} {x : α} (h : x ∈ l) :
    setAdd l x = l := by
  rw [setAdd, if_pos h]

theorem mem_setAdd_iff {α : Type} [DecidableEq α] {l : List α} {x y : α} :
    y ∈ setAdd l x ↔ y ∈ l ∨ y = x := by
  by_cases h : x ∈ l
  · rw [setAdd, if_pos h]
    constructor
    · exact Or.inl
    · rintro (hy | rfl)
      · exact hy
      · exact h
  · rw [setAdd, if_neg h]
    simp

theorem lookupF_fwdAdd_self (m : List (Int × List Pair)) (k : Int) (p : Pair) :
    p ∈ lookupF (fwdAdd m k p) k := by
  induction m with
  | nil => simp [fwdAdd, lookupF]
  | cons hd tl ih =>
    obtain ⟨k', ps⟩ := hd
    by_cases h : k' = k
    · simp only [fwdAdd, if_pos h, lookupF, h, if_true]
      exact setAdd_mem_self ps p
    · simp only [fwdAdd, if_neg h, lookupF, h, if_false]
      exact ih

theorem lookupF_fwdAdd_mono {m : List (Int × List Pair)} {k' : Int} {p' : Pair}
    (k : Int) (p : Pair) (h : p' ∈ lookupF m k') : p' ∈ lookupF (fwdAdd m k p) k' := by
  induction m with
  | nil => simp [lookupF] at h
  | cons hd tl ih =>
    obtain ⟨a, ps⟩ := hd
    by_cases hk : a = k
    · subst hk
      by_cases hk' : a = k'
      · subst hk'
        simp only [lookupF, if_true] at h
        simp only [fwdAdd, if_pos rfl, lookupF, if_true]
        exact mem_setAdd_of_mem p h
      · simp only [lookupF, if_neg hk'] at h
        simp only [fwdAdd, if_pos rfl, lookupF, if_neg hk']
        exact h
    · simp only [fwdAdd, if_neg hk]
      by_cases hk' : a = k'
      · simp only [lookupF, if_pos hk'] at h ⊢
        exact h
      · simp only [lookupF, if_neg hk'] at h ⊢
        exact ih h

theorem fwdAdd_eq_of_mem {m : List (Int × List Pair)} {k : Int} {p : Pair}
    (h : p ∈ lookupF m k) : fwdAdd m k p = m := by
  induction m with
  | nil => simp [lookupF] at h
  | cons hd tl ih =>
    obtain ⟨a, ps⟩ := hd
    by_cases hk : a = k
    · subst hk
      simp only [lookupF, if_true] at h
      simp [fwdAdd, setAdd_eq_of_mem h]
    · simp only [lookupF, if_neg hk] at h
      simp only [fwdAdd, if_neg hk, ih h]

theorem mem_lookupF_fwdAdd_iff {m : List (Int × List Pair)} {k₀ k : Int} {p₀ p : Pair} :
    p ∈ lookupF (fwdAdd m k₀ p₀) k ↔ p ∈ lookupF m k ∨ (k = k₀ ∧ p = p₀) := by
  induction m with
  | nil =>
    by_cases hk : k₀ = k
    · subst hk
      simp [fwdAdd, lookupF]
    · simp only [fwdAdd, lookupF, if_neg hk, List.not_mem_nil, false_or]
      constructor
      · exact fun h => absurd h (by simp)
      · rintro ⟨rfl, rfl⟩
        exact absurd rfl hk
  | cons hd tl ih =>
    obtain ⟨a, ps⟩ := hd
    by_cases ha : a = k₀
    · subst ha
      by_cases hk : a = k
      · subst hk
        simp only [fwdAdd, if_pos rfl, lookupF, if_true]
        rw [mem_setAdd_iff]
        simp
      · simp only [fwdAdd, if_pos rfl, lookupF, if_neg hk]
        have : ¬ k = a := fun h => hk h.symm
        simp [this]
    · simp only [fwdAdd, if_neg ha]
      by_cases hk : a = k
      · subst hk
        simp only [lookupF, if_true]
        have : ¬ a = k₀ := ha
        constructor
        · exact Or.inl
        · rintro (hp | ⟨rfl, rfl⟩)
          · exact hp
          · exact absurd rfl ha
      · simp only [lookupF, if_neg hk]
        exact ih

theorem lookupB_append (m m' : List (Pair × List Int)) (k : Pair) :
    lookupB (m ++ m') k =
      match lookupB m k with
      | some ws => some ws
      | none => lookupB m' k := by
  induction m with
  | nil => simp [lookupB]
  | cons hd tl ih =>
    obtain ⟨a, ws⟩ := hd
    by_cases h : a = k
    · simp [lookupB, if_pos h]
    · simpa [lookupB, if_neg h] using ih

theorem bkwAdd_eq_of_isSome {m : List (Pair × List Int)} {k : Pair} (w : Int)
    (h : (lookupB m k).isSome) : bkwAdd m k w = m := by
  rw [bkwAdd]
  cases hm : lookupB m k with
  | some ws => rfl
  | none => rw [hm] at h; simp at h

theorem lookupB_bkwAdd_self_isSome (m : List (Pair × List Int)) (k : Pair) (w : Int) :
    (lookupB (bkwAdd m k w) k).isSome := by
  rw [bkwAdd]
  cases hm : lookupB m k with
  | some ws => rw [hm]; simp
  | none =>
    rw [lookupB_append, hm]
    simp [lookupB]

theorem lookupB_bkwAdd_pres {m : List (Pair × List Int)} {k' : Pair}
    (k : Pair) (w : Int) (h : (lookupB m k').isSome) :
    lookupB (bkwAdd m k w) k' = lookupB m k' := by
  rw [bkwAdd]
  cases hm : lookupB m k with
  | some ws => rfl
  | none =>
    rw [lookupB_append]
    cases hk' : lookupB m k' with
    | some ws => rfl
    | none => rw [hk'] at h; simp at h

theorem lookupB_bkwAdd_of_none {m : List (Pair × List Int)} {k : Pair} (w : Int)
    (h : lookupB m k = none) : lookupB (bkwAdd m k w) k = some [w] := by
  rw [bkwAdd, h, lookupB_append, h]
  simp [lookupB]

theorem lookupB_bkwAdd_ne {m : List (Pair × List Int)} {k k' : Pair} (w : Int)
    (hne : k' ≠ k) : lookupB (bkwAdd m k w) k' = lookupB m k' := by
  rw [bkwAdd]
  cases hm : lookupB m k with
  | some ws => rfl
  | none =>
    rw [lookupB_append]
    cases hk' : lookupB m k' with
    | some ws => rfl
    | none =>
      simp only [lookupB]
      rw [if_neg (fun h => hne h.symm)]

/-- `appendC` written out with the nested updates explicit. -/
theorem appendC_def (s : SolverState) (a b c : Int) :
    appendC s (a, b, c) =
      { s with
        sets_fwd :=
          fwdAdd (fwdAdd (fwdAdd s.sets_fwd (-a) (normPair b c)) (-b) (normPair a c))
            (-c) (normPair a b)
        sets_bkw :=
          bkwAdd (bkwAdd (bkwAdd s.sets_bkw (normPair (-b) (-c)) a)
            (normPair (-a) (-b)) c) (normPair (-a) (-c)) b } := rfl

/-! ### The two indices under `append` -/

theorem mem_lookupF_appendC {s : SolverState} {t : Clause3} {k : Int} {p : Pair} :
    p ∈ lookupF (appendC s t).sets_fwd k ↔ p ∈ lookupF s.sets_fwd k ∨ contributesF t k p := by
  obtain ⟨a, b, c⟩ := t
  show p ∈ lookupF
      (fwdAdd (fwdAdd (fwdAdd s.sets_fwd (-a) (normPair b c)) (-b) (normPair a c))
        (-c) (normPair a b)) k ↔ _
  rw [mem_lookupF_fwdAdd_iff, mem_lookupF_fwdAdd_iff, mem_lookupF_fwdAdd_iff]
  unfold contributesF
  tauto

theorem mem_lookupF_foldl {k : Int} {p : Pair} :
    ∀ (cs : List Clause3) (s : SolverState),
      p ∈ lookupF (cs.foldl appendC s).sets_fwd k ↔
        p ∈ lookupF s.sets_fwd k ∨ ∃ t ∈ cs, contributesF t k p := by
  intro cs
  induction cs with
  | nil => simp
  | cons t cs ih =>
    intro s
    rw [List.foldl_cons, ih, mem_lookupF_appendC]
    simp only [List.mem_cons]
    constructor
    · rintro ((hb | hc) | ⟨u, hu, hc⟩)
      · exact Or.inl hb
      · exact Or.inr ⟨t, Or.inl rfl, hc⟩
      · exact Or.inr ⟨u, Or.inr hu, hc⟩
    · rintro (hb | ⟨u, rfl | hu, hc⟩)
      · exact Or.inl (Or.inl hb)
      · exact Or.inl (Or.inr hc)
      · exact Or.inr ⟨u, hu, hc⟩

theorem appendC_self_eq (s : SolverState) (t : Clause3) :
    appendC (appendC s t) t = appendC s t := by
  obtain ⟨a, b, c⟩ := t
  have hbc : normPair b c ∈ lookupF (appendC s (a, b, c)).sets_fwd (-a) :=
    lookupF_fwdAdd_mono _ _ (lookupF_fwdAdd_mono _ _ (lookupF_fwdAdd_self _ _ _))
  have hac : normPair a c ∈ lookupF (appendC s (a, b, c)).sets_fwd (-b) :=
    lookupF_fwdAdd_mono _ _ (lookupF_fwdAdd_self _ _ _)
  have hab : normPair a b ∈ lookupF (appendC s (a, b, c)).sets_fwd (-c) :=
    lookupF_fwdAdd_self _ _ _
  have hk1 : (lookupB (appendC s (a, b, c)).sets_bkw (normPair (-b) (-c))).isSome := by
    have h1 := lookupB_bkwAdd_self_isSome s.sets_bkw (normPair (-b) (-c)) a
    have h2 : (lookupB (bkwAdd (bkwAdd s.sets_bkw (normPair (-b) (-c)) a)
        (normPair (-a) (-b)) c) (normPair (-b) (-c))).isSome := by
      rw [lookupB_bkwAdd_pres _ _ h1]; exact h1
    show (lookupB (bkwAdd _ (normPair (-a) (-c)) b) _).isSome
    rw [lookupB_bkwAdd_pres _ _ h2]; exact h2
  have hk2 : (lookupB (appendC s (a, b, c)).sets_bkw (normPair (-a) (-b))).isSome := by
    have h1 := lookupB_bkwAdd_self_isSome (bkwAdd s.sets_bkw (normPair (-b) (-c)) a)
      (normPair (-a) (-b)) c
    show (lookupB (bkwAdd _ (normPair (-a) (-c)) b) _).isSome
    rw [lookupB_bkwAdd_pres _ _ h1]; exact h1
  have hk3 : (lookupB (appendC s (a, b, c)).sets_bkw (normPair (-a) (-c))).isSome :=
    lookupB_bkwAdd_self_isSome _ _ _
  conv_lhs => rw [appendC_def]
  rw [fwdAdd_eq_of_mem hbc, fwdAdd_eq_of_mem hac, fwdAdd_eq_of_mem hab,
    bkwAdd_eq_of_isSome a hk1, bkwAdd_eq_of_isSome c hk2, bkwAdd_eq_of_isSome b hk3]

theorem lookupB_appendC_pres (s : SolverState) (t : Clause3) (k : Pair)
    (h : (lookupB s.sets_bkw k).isSome) :
    lookupB (appendC s t).sets_bkw k = lookupB s.sets_bkw k := by
  obtain ⟨a, b, c⟩ := t
  have e1 : lookupB (bkwAdd s.sets_bkw (normPair (-b) (-c)) a) k = lookupB s.sets_bkw k :=
    lookupB_bkwAdd_pres _ _ h
  have e2 : lookupB (bkwAdd (bkwAdd s.sets_bkw (normPair (-b) (-c)) a)
      (normPair (-a) (-b)) c) k = lookupB s.sets_bkw k := by
    rw [lookupB_bkwAdd_pres _ _ (e1 ▸ h)]; exact e1
  show lookupB (bkwAdd _ (normPair (-a) (-c)) b) k = _
  rw [lookupB_bkwAdd_pres _ _ (e2 ▸ h)]; exact e2

theorem bkwAdd_singleton_pres {m : List (Pair × List Int)}
    (h : ∀ kws ∈ m, kws.2.length = 1) (k : Pair) (w : Int) :
    ∀ kws ∈ bkwAdd m k w, kws.2.length = 1 := by
  intro kws hkws
  rw [bkwAdd] at hkws
  cases hm : lookupB m k with
  | some ws => rw [hm] at hkws; exact h _ hkws
  | none =>
    rw [hm] at hkws
    rcases List.mem_append.mp hkws with hold | hnew
    · exact h _ hold
    · rcases List.mem_singleton.mp hnew with rfl
      rfl

theorem appendC_singleton_pres {s : SolverState} (t : Clause3)
    (h : ∀ kws ∈ s.sets_bkw, kws.2.length = 1) :
    ∀ kws ∈ (appendC s t).sets_bkw, kws.2.length = 1 := by
  obtain ⟨a, b, c⟩ := t
  exact bkwAdd_singleton_pres
    (bkwAdd_singleton_pres (bkwAdd_singleton_pres h _ _) _ _) _ _

theorem foldl_singleton_pres :
    ∀ (cs : List Clause3) (s : SolverState), (∀ kws ∈ s.sets_bkw, kws.2.length = 1) →
      ∀ kws ∈ (cs.foldl appendC s).sets_bkw, kws.2.length = 1 := by
  intro cs
  induction cs with
  | nil => exact fun s h => h
  | cons t cs ih => exact fun s h => ih _ (appendC_singleton_pres t h)

/-- Claim C7: appending the same 3-clause twice leaves both indices (and
the whole state) identical to appending it once, and a clause list with
an adjacent duplicated clause yields the same `solve` verdict as the
list with the duplicate removed. -/
theorem append_idem_and_duplicate_verdict :
    (∀ (s : SolverState) (t : Clause3), appendC (appendC s t) t = appendC s t)
    ∧ ∀ (pre post : List Clause3) (t : Clause3),
        solve (pre ++ t :: t :: post) = solve (pre ++ t :: post) := by
  refine ⟨appendC_self_eq, fun pre post t => ?_⟩
  simp only [solve, solveM, List.foldl_append, List.foldl_cons, appendC_self_eq]

/-- Claim C2 counterexample: after appending `(1,2,3)` and then `(4,2,3)`,
the backward key `norm(-2,-3) = (-3,-2)` holds only the witness `1`; the
completing literal `4` of the second clause was never added. -/
theorem bkw_second_witness_dropped :
    lookupB (buildState [(1, 2, 3), (4, 2, 3)]).sets_bkw (-3, -2) = some [1]
    ∧ (4 : Int) ∉ [(1 : Int)] := by
  constructor
  · decide
  · decide

theorem lookupB_appendC_create1 (s : SolverState) (a b c : Int)
    (h : lookupB s.sets_bkw (normPair (-b) (-c)) = none) :
    lookupB (appendC s (a, b, c)).sets_bkw (normPair (-b) (-c)) = some [a] := by
  have e1 := lookupB_bkwAdd_of_none a h
  have e2 : lookupB (bkwAdd (bkwAdd s.sets_bkw (normPair (-b) (-c)) a)
      (normPair (-a) (-b)) c) (normPair (-b) (-c)) = some [a] := by
    rw [lookupB_bkwAdd_pres _ _ (by rw [e1]; rfl)]; exact e1
  show lookupB (bkwAdd _ (normPair (-a) (-c)) b) _ = _
  rw [lookupB_bkwAdd_pres _ _ (by rw [e2]; rfl)]; exact e2

theorem lookupB_appendC_create2 (s : SolverState) (a b c : Int)
    (h : lookupB s.sets_bkw (normPair (-a) (-b)) = none)
    (hne : normPair (-a) (-b) ≠ normPair (-b) (-c)) :
    lookupB (appendC s (a, b, c)).sets_bkw (normPair (-a) (-b)) = some [c] := by
  have e1 : lookupB (bkwAdd s.sets_bkw (normPair (-b) (-c)) a) (normPair (-a) (-b)) = none := by
    rw [lookupB_bkwAdd_ne _ hne]; exact h
  have e2 := lookupB_bkwAdd_of_none c e1
  show lookupB (bkwAdd _ (normPair (-a) (-c)) b) _ = _
  rw [lookupB_bkwAdd_pres _ _ (by rw [e2]; rfl)]; exact e2

theorem lookupB_appendC_create3 (s : SolverState) (a b c : Int)
    (h : lookupB s.sets_bkw (normPair (-a) (-c)) = none)
    (hne1 : normPair (-a) (-c) ≠ normPair (-b) (-c))
    (hne2 : normPair (-a) (-c) ≠ normPair (-a) (-b)) :
    lookupB (appendC s (a, b, c)).sets_bkw (normPair (-a) (-c)) = some [b] := by
  have e1 : lookupB (bkwAdd s.sets_bkw (normPair (-b) (-c)) a) (normPair (-a) (-c)) = none := by
    rw [lookupB_bkwAdd_ne _ hne1]; exact h
  have e2 : lookupB (bkwAdd (bkwAdd s.sets_bkw (normPair (-b) (-c)) a)
      (normPair (-a) (-b)) c) (normPair (-a) (-c)) = none := by
    rw [lookupB_bkwAdd_ne _ hne2]; exact e1
  exact lookupB_bkwAdd_of_none b e2

/-- Claim C2 (amended): a backward key gains its witness only when the key
is created: an existing key is left unchanged, and each of the three keys
`norm(-b,-c)`, `norm(-a,-b)`, `norm(-a,-c)` (processed in that order)
receives exactly the singleton witness `a`, `c`, `b` respectively when it
is absent from the index (and distinct from the keys created before it in
the same call). -/
theorem append_bkw_first_writer_wins :
    (∀ (s : SolverState) (t : Clause3) (k : Pair), (lookupB s.sets_bkw k).isSome →
        lookupB (appendC s t).sets_bkw k = lookupB s.sets_bkw k)
    ∧ (∀ (s : SolverState) (a b c : Int),
        lookupB s.sets_bkw (normPair (-b) (-c)) = none →
        lookupB (appendC s (a, b, c)).sets_bkw (normPair (-b) (-c)) = some [a])
    ∧ (∀ (s : SolverState) (a b c : Int),
        lookupB s.sets_bkw (normPair (-a) (-b)) = none →
        normPair (-a) (-b) ≠ normPair (-b) (-c) →
        lookupB (appendC s (a, b, c)).sets_bkw (normPair (-a) (-b)) = some [c])
    ∧ (∀ (s : SolverState) (a b c : Int),
        lookupB s.sets_bkw (normPair (-a) (-c)) = none →
        normPair (-a) (-c) ≠ normPair (-b) (-c) →
        normPair (-a) (-c) ≠ normPair (-a) (-b) →
        lookupB (appendC s (a, b, c)).sets_bkw (normPair (-a) (-c)) = some [b]) :=
  ⟨lookupB_appendC_pres, lookupB_appendC_create1, lookupB_appendC_create2,
    lookupB_appendC_create3⟩

/-- Claim C9: after any sequence of `append` calls on a fresh instance,
every backward-index key maps to exactly one witness; an `append` never
changes the entry of a key that is already present, and a key absent
before an `append` of `(a,b,c)` whose first branch creates it receives
exactly the singleton `[a]` — so the stored witness is the completing
literal recorded by the first clause that created the key. -/
theorem bkw_singleton_per_key :
    (∀ (cs : List Clause3), ∀ kws ∈ (buildState cs).sets_bkw, kws.2.length = 1)
    ∧ (∀ (s : SolverState) (t : Clause3) (k : Pair), (lookupB s.sets_bkw k).isSome →
        lookupB (appendC s t).sets_bkw k = lookupB s.sets_bkw k)
    ∧ (∀ (s : SolverState) (a b c : Int),
        lookupB s.sets_bkw (normPair (-b) (-c)) = none →
        lookupB (appendC s (a, b, c)).sets_bkw (normPair (-b) (-c)) = some [a]) := by
  refine ⟨fun cs => foldl_singleton_pres cs initState ?_, lookupB_appendC_pres,
    lookupB_appendC_create1⟩
  intro kws hkws
  simp [initState] at hkws

/-- Claim C3 (amended): the forward index is insertion-order independent
— permuting the clause list leaves every key's pair set unchanged — but
the overall verdict is not (see the counterexample): the backward index
keeps only the first witness per key, which depends on clause order. -/
theorem fwd_index_perm_invariant {cs₁ cs₂ : List Clause3} (h : cs₁.Perm cs₂)
    (k : Int) (p : Pair) :
    p ∈ lookupF (buildState cs₁).sets_fwd k ↔ p ∈ lookupF (buildState cs₂).sets_fwd k := by
  unfold buildState
  rw [mem_lookupF_foldl, mem_lookupF_foldl]
  have hmem : (∃ t ∈ cs₁, contributesF t k p) ↔ ∃ t ∈ cs₂, contributesF t k p :=
    ⟨fun ⟨t, ht, hc⟩ => ⟨t, h.mem_iff.mp ht, hc⟩,
     fun ⟨t, ht, hc⟩ => ⟨t, h.mem_iff.mpr ht, hc⟩⟩
  rw [hmem]

/-! ### Concrete runs of the full pipeline -/

set_option maxRecDepth 20000
set_option maxHeartbeats 4000000

/-- Claim C3 counterexample: swapping the first two clauses of a list
flips the `solve` verdict from UNSAT to SAT, so the verdict is not
permutation invariant. -/
theorem solve_not_perm_invariant :
    solve [(5,1,1), (6,1,1), (7,-1,-1), (-7,-1,2), (-7,-1,-2), (-5,1,2), (-5,1,-2)] = false
    ∧ solve [(6,1,1), (5,1,1), (7,-1,-1), (-7,-1,2), (-7,-1,-2), (-5,1,2), (-5,1,-2)] = true
    ∧ ([(5,1,1), (6,1,1), (7,-1,-1), (-7,-1,2), (-7,-1,-2), (-5,1,2), (-5,1,-2)] :
        List Clause3).Perm
        [(6,1,1), (5,1,1), (7,-1,-1), (-7,-1,2), (-7,-1,-2), (-5,1,2), (-5,1,-2)] :=
  ⟨by decide, by decide, List.Perm.swap _ _ _⟩

/-- Witness for the amended C3 theorem at a concrete permutation. -/
theorem fwd_index_perm_invariant_witness :
    ([(1,2,3), (4,5,6)] : List Clause3).Perm [(4,5,6), (1,2,3)]
    ∧ ((2, 3) ∈ lookupF (buildState [(1,2,3), (4,5,6)]).sets_fwd (-1) ↔
        (2, 3) ∈ lookupF (buildState [(4,5,6), (1,2,3)]).sets_fwd (-1)) :=
  ⟨List.Perm.swap _ _ _, fwd_index_perm_invariant (List.Perm.swap _ _ _) (-1) (2, 3)⟩

/-- Claim C8 counterexample: running `solve` twice on the same instance
is observable — the second call returns false, while the same clause list
on a fresh instance returns true, because the first call's indices and
accumulators survive. -/
theorem solve_state_survives :
    (solveM (solveM initState [(-1,2,2), (-1,-2,-2)]).2
      [(5,1,1), (-5,1,2), (-5,1,-2)]).1 = false
    ∧ (solveM initState [(5,1,1), (-5,1,2), (-5,1,-2)]).1 = true :=
  ⟨by decide, by decide⟩

/-- Claim C8 (amended): the constructor provides empty indices and
accumulators, but `solve` performs no reset: the state it leaves behind is
the incoming state extended by the call's clauses (with the accumulator
updates of `find_unsat`), so state survives into later calls on the same
instance; only a fresh instance starts empty. -/
theorem solve_state_semantics :
    initState.sets_fwd = [] ∧ initState.sets_bkw = [] ∧ initState.unsat_pos = []
    ∧ initState.unsat_neg = [] ∧ initState.unsat_tup = []
    ∧ (∀ (s : SolverState) (cs : List Clause3),
        (solveM s cs).2.sets_fwd = (cs.foldl appendC s).sets_fwd
        ∧ (solveM s cs).2.sets_bkw = (cs.foldl appendC s).sets_bkw) :=
  ⟨rfl, rfl, rfl, rfl, rfl, fun _ _ => ⟨rfl, rfl⟩⟩

/-- Claim C4 counterexample: `solve` on the 10-clause example list does
not return false. -/
theorem solve_example10_not_false : ¬ solve exampleClauses10 = false := by decide

/-- Claim C4 (amended): `solve` on the 10-clause example list returns
true (reported SAT), not false. -/
theorem solve_example10_true : solve exampleClauses10 = true := by decide

/-- Claim C5: `solve` on the documented 16-clause list returns true
(reported SAT). -/
theorem solve_example16_true : solve exampleClauses16 = true := by decide

/-! ### The 2-SAT oracle ignores clauses of other arities -/

theorem clauseEdges_eq_nil {c : Clause} (h1 : c.length ≠ 1) (h2 : c.length ≠ 2) :
    clauseEdges c = [] := by
  rcases c with _ | ⟨x, _ | ⟨y, _ | ⟨z, r⟩⟩⟩
  · rfl
  · exact absurd rfl h1
  · exact absurd rfl h2
  · rfl

theorem edgesOf_eq_nil {cs : List Clause} (h : ∀ c ∈ cs, c.length ≠ 1 ∧ c.length ≠ 2) :
    edgesOf cs = [] := by
  induction cs with
  | nil => rfl
  | cons c cs ih =>
    show clauseEdges c ++ edgesOf cs = []
    rw [clauseEdges_eq_nil (h c (List.mem_cons_self c cs)).1 (h c (List.mem_cons_self c cs)).2,
      ih fun c' hc' => h c' (List.mem_cons_of_mem c hc')]
    rfl

/-- Claim C10: implication-graph edges arise only from clauses of arity
exactly 1 or 2; a list whose clauses all have other arities yields an
empty graph and verdict true. -/
theorem two_sat_ignores_other_arities (cs : List Clause)
    (h : ∀ c ∈ cs, c.length ≠ 1 ∧ c.length ≠ 2) :
    edgesOf cs = [] ∧ two_sat cs = true := by
  have he : edgesOf cs = [] := edgesOf_eq_nil h
  refine ⟨he, ?_⟩
  simp [two_sat, nodesOf, he]

/-- Witness for C10 at a concrete input with arities 3 and 0. -/
theorem two_sat_ignores_other_arities_witness :
    (∀ c ∈ [[1,2,3], ([] : Clause)], c.length ≠ 1 ∧ c.length ≠ 2)
    ∧ (edgesOf [[1,2,3], []] = [] ∧ two_sat [[1,2,3], []] = true) :=
  ⟨by decide, two_sat_ignores_other_arities _ (by decide)⟩

/-! ### What Stage B actually adds to `unsat_tup` -/

theorem stageB_inner_mem (fwd : List (Int × List Pair)) (k : Pair) :
    ∀ (ws : List Int) (tup : List Pair) (p : Pair),
      p ∈ ws.foldl
          (fun tup v =>
            if keyMemF fwd v then
              (if two_sat (pairClause k :: (lookupF fwd v).map pairClause) then tup
               else setAdd tup (-k.2, -k.1))
            else tup) tup ↔
        p ∈ tup ∨ ∃ v ∈ ws, keyMemF fwd v = true
          ∧ two_sat (pairClause k :: (lookupF fwd v).map pairClause) = false
          ∧ p = (-k.2, -k.1) := by
  intro ws
  induction ws with
  | nil => simp
  | cons v ws ih =>
    intro tup p
    rw [List.foldl_cons, ih]
    by_cases h1 : keyMemF fwd v = true
    · rw [if_pos h1]
      by_cases h2 : two_sat (pairClause k :: (lookupF fwd v).map pairClause) = true
      · rw [if_pos h2]
        constructor
        · rintro (h | ⟨v', hv', hc⟩)
          · exact Or.inl h
          · exact Or.inr ⟨v', List.mem_cons_of_mem _ hv', hc⟩
        · rintro (h | ⟨v', hv', hc⟩)
          · exact Or.inl h
          · rcases List.mem_cons.mp hv' with rfl | hv'
            · rcases hc with ⟨_, hfalse, _⟩
              rw [hfalse] at h2
              exact Bool.noConfusion h2
            · exact Or.inr ⟨v', hv', hc⟩
      · have h2' : two_sat (pairClause k :: (lookupF fwd v).map pairClause) = false := by
          cases htw : two_sat (pairClause k :: (lookupF fwd v).map pairClause) with
          | true => exact absurd htw h2
          | false => rfl
        rw [if_neg h2]
        constructor
        · rintro (h | ⟨v', hv', hc⟩)
          · rcases mem_setAdd_iff.mp h with h | rfl
            · exact Or.inl h
            · exact Or.inr ⟨v, List.mem_cons_self v ws, h1, h2', rfl⟩
          · exact Or.inr ⟨v', List.mem_cons_of_mem _ hv', hc⟩
        · rintro (h | ⟨v', hv', hc⟩)
          · exact Or.inl (mem_setAdd_of_mem _ h)
          · rcases List.mem_cons.mp hv' with rfl | hv'
            · rcases hc with ⟨_, _, rfl⟩
              exact Or.inl (setAdd_mem_self _ _)
            · exact Or.inr ⟨v', hv', hc⟩
    · rw [if_neg h1]
      constructor
      · rintro (h | ⟨v', hv', hc⟩)
        · exact Or.inl h
        · exact Or.inr ⟨v', List.mem_cons_of_mem _ hv', hc⟩
      · rintro (h | ⟨v', hv', hc⟩)
        · exact Or.inl h
        · rcases List.mem_cons.mp hv' with rfl | hv'
          · exact absurd hc.1 h1
          · exact Or.inr ⟨v', hv', hc⟩

theorem stageB_foldl_mem (fwd : List (Int × List Pair)) :
    ∀ (bkw : List (Pair × List Int)) (tup : List Pair) (p : Pair),
      p ∈ bkw.foldl
          (fun tup kv =>
            kv.2.foldl
              (fun tup v =>
                if keyMemF fwd v then
                  (if two_sat (pairClause kv.1 :: (lookupF fwd v).map pairClause) then tup
                   else setAdd tup (-kv.1.2, -kv.1.1))
                else tup) tup) tup ↔
        p ∈ tup ∨ ∃ kws ∈ bkw, ∃ v ∈ kws.2, keyMemF fwd v = true
          ∧ two_sat (pairClause kws.1 :: (lookupF fwd v).map pairClause) = false
          ∧ p = (-kws.1.2, -kws.1.1) := by
  intro bkw
  induction bkw with
  | nil => simp
  | cons kv bkw ih =>
    intro tup p
    rw [List.foldl_cons, ih, stageB_inner_mem fwd kv.1]
    constructor
    · rintro ((h | ⟨v, hv, hc⟩) | ⟨kws, hkws, hrest⟩)
      · exact Or.inl h
      · exact Or.inr ⟨kv, List.mem_cons_self kv bkw, v, hv, hc⟩
      · exact Or.inr ⟨kws, List.mem_cons_of_mem _ hkws, hrest⟩
    · rintro (h | ⟨kws, hkws, hrest⟩)
      · exact Or.inl (Or.inl h)
      · rcases List.mem_cons.mp hkws with rfl | hkws
        · exact Or.inl (Or.inr hrest)
        · exact Or.inr ⟨kws, hkws, hrest⟩

/-- Claim C1 (amended): Stage B does not build one combined list per
backward entry and appends no unit witness clauses; instead, for every
entry `(k, witnesses)` and every witness `v` separately, and only when
`v` is a forward-index key, it runs the oracle on `[k] + sets_fwd[v]`,
adding the De Morgan dual `(-k.2, -k.1)` to `unsat_tup` exactly when that
per-witness list is unsatisfiable; witnesses absent from the forward
index trigger no oracle call. -/
theorem stageB_adds_iff (fwd : List (Int × List Pair)) (bkw : List (Pair × List Int))
    (tup : List Pair) (p : Pair) :
    p ∈ stageB fwd bkw tup ↔
      p ∈ tup ∨ ∃ kws ∈ bkw, ∃ v ∈ kws.2, keyMemF fwd v = true
        ∧ two_sat (pairClause kws.1 :: (lookupF fwd v).map pairClause) = false
        ∧ p = (-kws.1.2, -kws.1.1) := by
  unfold stageB
  exact stageB_foldl_mem fwd bkw tup p

/-- Claim C1 counterexample: on the state built from `(1,2,3)` and
`(-1,-1,-1)`, the source's Stage B derives nothing, while the combined
list described by the specification (key, then unit witness clauses, then
forward pairs) would derive `(2,3)` and `(-1,-1)`. -/
theorem stageB_deviates_from_spec :
    stageB (buildState [(1,2,3), (-1,-1,-1)]).sets_fwd
        (buildState [(1,2,3), (-1,-1,-1)]).sets_bkw [] = []
    ∧ stageB_spec (buildState [(1,2,3), (-1,-1,-1)]).sets_fwd
        (buildState [(1,2,3), (-1,-1,-1)]).sets_bkw [] = [(2, 3), (-1, -1)]
    ∧ stageB (buildState [(1,2,3), (-1,-1,-1)]).sets_fwd
        (buildState [(1,2,3), (-1,-1,-1)]).sets_bkw [] ≠
      stageB_spec (buildState [(1,2,3), (-1,-1,-1)]).sets_fwd
        (buildState [(1,2,3), (-1,-1,-1)]).sets_bkw [] :=
  ⟨by decide, by decide, by decide⟩

/-! ### Reachability: the executable closure computes reflexive-transitive
reachability along the implication edges -/

theorem reachStep_acc_extends :
    ∀ (l : List (Int × Int)) (acc : List Int),
      acc <+: l.foldl
        (fun acc e => if e.1 ∈ acc ∧ ¬ e.2 ∈ acc then acc ++ [e.2] else acc) acc := by
  intro l
  induction l with
  | nil => intro acc; exact List.prefix_refl _
  | cons e l ih =>
    intro acc
    rw [List.foldl_cons]
    by_cases h : e.1 ∈ acc ∧ ¬ e.2 ∈ acc
    · rw [if_pos h]
      exact (List.prefix_append acc [e.2]).trans (ih _)
    · rw [if_neg h]
      exact ih _

theorem reachStep_extends (E : List (Int × Int)) (s : List Int) : s <+: reachStep E s :=
  reachStep_acc_extends E s

theorem mem_reachStep_src :
    ∀ (l : List (Int × Int)) (acc : List Int) (x : Int),
      x ∈ l.foldl
          (fun acc e => if e.1 ∈ acc ∧ ¬ e.2 ∈ acc then acc ++ [e.2] else acc) acc →
        x ∈ acc ∨ x ∈ l.map Prod.snd := by
  intro l
  induction l with
  | nil => intro acc x hx; exact Or.inl hx
  | cons e l ih =>
    intro acc x hx
    rw [List.foldl_cons] at hx
    rcases ih _ x hx with h | h
    · by_cases hc : e.1 ∈ acc ∧ ¬ e.2 ∈ acc
      · rw [if_pos hc] at h
        rcases List.mem_append.mp h with h | h
        · exact Or.inl h
        · rcases List.mem_singleton.mp h with rfl
          exact Or.inr (by simp)
      · rw [if_neg hc] at h
        exact Or.inl h
    · exact Or.inr (List.mem_cons_of_mem _ h)

theorem reachStep_nodup_aux :
    ∀ (l : List (Int × Int)) (acc : List Int), acc.Nodup →
      (l.foldl
        (fun acc e => if e.1 ∈ acc ∧ ¬ e.2 ∈ acc then acc ++ [e.2] else acc) acc).Nodup := by
  intro l
  induction l with
  | nil => intro acc h; exact h
  | cons e l ih =>
    intro acc h
    rw [List.foldl_cons]
    apply ih
    by_cases hc : e.1 ∈ acc ∧ ¬ e.2 ∈ acc
    · rw [if_pos hc, List.nodup_append]
      refine ⟨h, by simp, ?_⟩
      intro x hx hx2
      rcases List.mem_singleton.mp hx2 with rfl
      exact hc.2 hx
    · rw [if_neg hc]
      exact h

theorem reachStep_nodup (E : List (Int × Int)) {s : List Int} (h : s.Nodup) :
    (reachStep E s).Nodup := reachStep_nodup_aux E s h

theorem mem_reachStep_of_edge_aux :
    ∀ (l : List (Int × Int)) (acc : List Int) (p q : Int), (p, q) ∈ l → p ∈ acc →
      q ∈ l.foldl
        (fun acc e => if e.1 ∈ acc ∧ ¬ e.2 ∈ acc then acc ++ [e.2] else acc) acc := by
  intro l
  induction l with
  | nil => intro acc p q hpq; exact absurd hpq (List.not_mem_nil _)
  | cons e l ih =>
    intro acc p q hpq hp
    rw [List.foldl_cons]
    rcases List.mem_cons.mp hpq with heq | hpq'
    · subst heq
      have hq : q ∈ if (p, q).1 ∈ acc ∧ ¬ (p, q).2 ∈ acc then acc ++ [(p, q).2] else acc := by
        by_cases hc : (p, q).1 ∈ acc ∧ ¬ (p, q).2 ∈ acc
        · rw [if_pos hc]; simp
        · rw [if_neg hc]
          by_cases hq : q ∈ acc
          · exact hq
          · exact absurd ⟨hp, hq⟩ hc
      exact (reachStep_acc_extends l _).subset hq
    · have hp' : p ∈ if e.1 ∈ acc ∧ ¬ e.2 ∈ acc then acc ++ [e.2] else acc := by
        by_cases hc : e.1 ∈ acc ∧ ¬ e.2 ∈ acc
        · rw [if_pos hc]; exact List.mem_append_left _ hp
        · rw [if_neg hc]; exact hp
      exact ih _ p q hpq' hp'

theorem mem_reachStep_of_edge (E : List (Int × Int)) {s : List Int} {p q : Int}
    (hpq : (p, q) ∈ E) (hp : p ∈ s) : q ∈ reachStep E s :=
  mem_reachStep_of_edge_aux E s p q hpq hp

theorem reachStep_pres_aux (E : List (Int × Int)) (P : Int → Prop)
    (hE : ∀ e ∈ E, P e.1 → P e.2) :
    ∀ (l : List (Int × Int)), (∀ e ∈ l, e ∈ E) → ∀ (acc : List Int), (∀ x ∈ acc, P x) →
      ∀ x ∈ l.foldl
        (fun acc e => if e.1 ∈ acc ∧ ¬ e.2 ∈ acc then acc ++ [e.2] else acc) acc, P x := by
  intro l
  induction l with
  | nil => intro _ acc hacc x hx; exact hacc x hx
  | cons e l ih =>
    intro hl acc hacc
    rw [List.foldl_cons]
    apply ih (fun e' he' => hl e' (List.mem_cons_of_mem _ he'))
    intro x hx
    by_cases hc : e.1 ∈ acc ∧ ¬ e.2 ∈ acc
    · rw [if_pos hc] at hx
      rcases List.mem_append.mp hx with hx | hx
      · exact hacc x hx
      · rcases List.mem_singleton.mp hx with rfl
        exact hE e (hl e (List.mem_cons_self e l)) (hacc _ hc.1)
    · rw [if_neg hc] at hx
      exact hacc x hx

theorem reachStep_pres (E : List (Int × Int)) (P : Int → Prop)
    (hE : ∀ e ∈ E, P e.1 → P e.2) {s : List Int} (hs : ∀ x ∈ s, P x) :
    ∀ x ∈ reachStep E s, P x :=
  reachStep_pres_aux E P hE E (fun _ he => he) s hs

theorem reachFix_succ (E : List (Int × Int)) (n : Nat) (s : List Int) :
    reachFix E (n + 1) s =
      if reachStep E s = s then s else reachFix E n (reachStep E s) := rfl

theorem reachFix_extends (E : List (Int × Int)) :
    ∀ (n : Nat) (s : List Int), s <+: reachFix E n s := by
  intro n
  induction n with
  | zero => intro s; exact List.prefix_refl _
  | succ n ih =>
    intro s
    rw [reachFix_succ]
    by_cases h : reachStep E s = s
    · rw [if_pos h]
    · rw [if_neg h]
      exact (reachStep_extends E s).trans (ih _)

theorem reachFix_pres (E : List (Int × Int)) (P : Int → Prop)
    (hE : ∀ e ∈ E, P e.1 → P e.2) :
    ∀ (n : Nat) (s : List Int), (∀ x ∈ s, P x) → ∀ x ∈ reachFix E n s, P x := by
  intro n
  induction n with
  | zero => intro s hs; exact hs
  | succ n ih =>
    intro s hs
    rw [reachFix_succ]
    by_cases h : reachStep E s = s
    · rw [if_pos h]; exact hs
    · rw [if_neg h]
      exact ih _ (reachStep_pres E P hE hs)

theorem reachFix_fixed (E : List (Int × Int)) (M : List Int)
    (hM : E.map Prod.snd ⊆ M) :
    ∀ (n : Nat) (s : List Int), s.Nodup → s ⊆ M → M.length ≤ n + s.length →
      reachStep E (reachFix E n s) = reachFix E n s := by
  intro n
  induction n with
  | zero =>
    intro s hnd hsub hlen
    show reachStep E s = s
    have hsx : reachStep E s ⊆ M := by
      intro x hx
      rcases mem_reachStep_src E s x hx with hx | hx
      · exact hsub hx
      · exact hM hx
    have h1 : (reachStep E s).length ≤ M.length :=
      ((reachStep_nodup E hnd).subperm hsx).length_le
    have h2 : s.length ≤ (reachStep E s).length := (reachStep_extends E s).length_le
    exact ((reachStep_extends E s).eq_of_length (by omega)).symm
  | succ n ih =>
    intro s hnd hsub hlen
    rw [reachFix_succ]
    by_cases h : reachStep E s = s
    · rw [if_pos h]; exact h
    · rw [if_neg h]
      have hsx : reachStep E s ⊆ M := by
        intro x hx
        rcases mem_reachStep_src E s x hx with hx | hx
        · exact hsub hx
        · exact hM hx
      have hlt : s.length < (reachStep E s).length := by
        have hle := (reachStep_extends E s).length_le
        rcases Nat.lt_or_ge s.length (reachStep E s).length with hlt | hge
        · exact hlt
        · exact absurd ((reachStep_extends E s).eq_of_length (by omega)).symm h
      exact ih _ (reachStep_nodup E hnd) hsx (by omega)

theorem reachList_fixed (E : List (Int × Int)) (a : Int) :
    reachStep E (reachList E a) = reachList E a := by
  apply reachFix_fixed E (a :: E.map Prod.snd)
    (fun x hx => List.mem_cons_of_mem _ hx) (E.length + 1) [a] (by simp)
  · intro x hx
    rcases List.mem_singleton.mp hx with rfl
    exact List.mem_cons_self _ _
  · simp

theorem mem_reachList_self (E : List (Int × Int)) (a : Int) : a ∈ reachList E a :=
  (reachFix_extends E _ _).subset (by simp)

theorem reachList_closed (E : List (Int × Int)) {a p q : Int}
    (hpq : (p, q) ∈ E) (hp : p ∈ reachList E a) : q ∈ reachList E a := by
  have h := mem_reachStep_of_edge E hpq hp
  rwa [reachList_fixed] at h

theorem mem_reachList_reaches (E : List (Int × Int)) {a x : Int}
    (hx : x ∈ reachList E a) : Reaches E a x := by
  refine reachFix_pres E (Reaches E a) ?_ _ [a] ?_ x hx
  · exact fun e he h => h.tail he
  · intro y hy
    rcases List.mem_singleton.mp hy with rfl
    exact Relation.ReflTransGen.refl

theorem reaches_mem_reachList (E : List (Int × Int)) {a x : Int}
    (h : Reaches E a x) : x ∈ reachList E a := by
  induction h with
  | refl => exact mem_reachList_self E a
  | tail _ hbc ih => exact reachList_closed E hbc ih

theorem reachB_iff (E : List (Int × Int)) (a b : Int) :
    reachB E a b = true ↔ Reaches E a b := by
  rw [reachB, decide_eq_true_eq]
  exact ⟨mem_reachList_reaches E, reaches_mem_reachList E⟩

/-! ### The oracle's verdict: same-SCC check, soundness -/

theorem two_sat_def (cs : List Clause) :
    two_sat cs = !((nodesOf cs).any fun v =>
      decide ((-v) ∈ nodesOf cs) && sameSCC (edgesOf cs) v (-v)) := rfl

theorem two_sat_eq_false_iff (cs : List Clause) :
    two_sat cs = false ↔ ∃ v, BadVar cs v := by
  rw [two_sat_def, Bool.not_eq_false']
  rw [List.any_eq_true]
  unfold BadVar sameSCC
  constructor
  · rintro ⟨v, hv, hcond⟩
    rw [Bool.and_eq_true, Bool.and_eq_true] at hcond
    obtain ⟨hdec, h1, h2⟩ := hcond
    exact ⟨v, hv, of_decide_eq_true hdec, (reachB_iff _ _ _).mp h1, (reachB_iff _ _ _).mp h2⟩
  · rintro ⟨v, hv, hnv, h1, h2⟩
    refine ⟨v, hv, ?_⟩
    rw [Bool.and_eq_true, Bool.and_eq_true]
    exact ⟨decide_eq_true hnv, (reachB_iff _ _ _).mpr h1, (reachB_iff _ _ _).mpr h2⟩

theorem mem_edgesOf {cs : List Clause} {e : Int × Int} :
    e ∈ edgesOf cs ↔ ∃ c ∈ cs, e ∈ clauseEdges c := by
  induction cs with
  | nil => simp [edgesOf]
  | cons c cs ih =>
    show e ∈ clauseEdges c ++ edgesOf cs ↔ _
    rw [List.mem_append, ih]
    constructor
    · rintro (h | ⟨c', hc', h⟩)
      · exact ⟨c, List.mem_cons_self c cs, h⟩
      · exact ⟨c', List.mem_cons_of_mem _ hc', h⟩
    · rintro ⟨c', hc', h⟩
      rcases List.mem_cons.mp hc' with rfl | hc'
      · exact Or.inl h
      · exact Or.inr ⟨c', hc', h⟩

theorem clauseEdges_cases {c : Clause} {e : Int × Int} (he : e ∈ clauseEdges c) :
    (∃ x, c = [x] ∧ (e = (-x, x) ∨ e = (x, x)))
    ∨ (∃ x y, c = [x, y] ∧ (e = (-x, y) ∨ e = (-y, x))) := by
  rcases c with _ | ⟨x, _ | ⟨y, _ | ⟨z, r⟩⟩⟩
  · simp [clauseEdges] at he
  · exact Or.inl ⟨x, rfl, by simpa [clauseEdges] using he⟩
  · exact Or.inr ⟨x, y, rfl, by simpa [clauseEdges] using he⟩
  · simp [clauseEdges] at he

theorem edgesOf_nonzero {cs : List Clause} (h : ∀ c ∈ cs, ∀ l ∈ c, l ≠ 0) :
    ∀ e ∈ edgesOf cs, e.1 ≠ 0 ∧ e.2 ≠ 0 := by
  intro e he
  rcases mem_edgesOf.mp he with ⟨c, hc, hce⟩
  rcases clauseEdges_cases hce with ⟨x, rfl, hx⟩ | ⟨x, y, rfl, hxy⟩
  · have hx0 : x ≠ 0 := h _ hc x (by simp)
    rcases hx with rfl | rfl
    · exact ⟨by intro h0; apply hx0; omega, hx0⟩
    · exact ⟨hx0, hx0⟩
  · have hx0 : x ≠ 0 := h _ hc x (by simp)
    have hy0 : y ≠ 0 := h _ hc y (by simp)
    rcases hxy with rfl | rfl
    · exact ⟨by intro h0; apply hx0; omega, hy0⟩
    · exact ⟨by intro h0; apply hy0; omega, hx0⟩

theorem mem_nodesOf_nonzero {cs : List Clause} (hz : ∀ c ∈ cs, ∀ l ∈ c, l ≠ 0)
    {v : Int} (hv : v ∈ nodesOf cs) : v ≠ 0 := by
  unfold nodesOf at hv
  rcases List.mem_append.mp (List.mem_dedup.mp hv) with hv | hv
  · rcases List.mem_map.mp hv with ⟨e, he, rfl⟩
    exact (edgesOf_nonzero hz e he).1
  · rcases List.mem_map.mp hv with ⟨e, he, rfl⟩
    exact (edgesOf_nonzero hz e he).2

theorem edgesOf_dual {cs : List Clause} :
    ∀ e ∈ edgesOf cs, Reaches (edgesOf cs) (-e.2) (-e.1) := by
  intro e he
  rcases mem_edgesOf.mp he with ⟨c, hc, hce⟩
  rcases clauseEdges_cases hce with ⟨x, rfl, hx⟩ | ⟨x, y, rfl, hxy⟩
  · rcases hx with rfl | rfl
    · have hmem : ((-x : Int), x) ∈ edgesOf cs :=
        mem_edgesOf.mpr ⟨[x], hc, by simp [clauseEdges]⟩
      simpa using Relation.ReflTransGen.single (hmem : EdgeRel (edgesOf cs) (-x) x)
    · exact Relation.ReflTransGen.refl
  · rcases hxy with rfl | rfl
    · have hmem : ((-y : Int), x) ∈ edgesOf cs :=
        mem_edgesOf.mpr ⟨[x, y], hc, by simp [clauseEdges]⟩
      simpa using Relation.ReflTransGen.single (hmem : EdgeRel (edgesOf cs) (-y) x)
    · have hmem : ((-x : Int), y) ∈ edgesOf cs :=
        mem_edgesOf.mpr ⟨[x, y], hc, by simp [clauseEdges]⟩
      simpa using Relation.ReflTransGen.single (hmem : EdgeRel (edgesOf cs) (-x) y)

theorem reaches_skew {cs : List Clause} {a b : Int}
    (h : Reaches (edgesOf cs) a b) : Reaches (edgesOf cs) (-b) (-a) := by
  induction h with
  | refl => exact Relation.ReflTransGen.refl
  | tail _ hbc ih =>
    exact Relation.ReflTransGen.trans (edgesOf_dual _ hbc) ih

theorem litSat_neg_iff {σ : Int → Bool} {l : Int} (hl : l ≠ 0) :
    LitSat σ (-l) ↔ ¬ LitSat σ l := by
  unfold LitSat
  rcases lt_trichotomy l 0 with h | h | h
  · rw [if_neg (by omega : ¬ (0:Int) < l), if_pos (by omega : (0:Int) < -l)]
    cases σ (-l) <;> simp
  · exact absurd h hl
  · rw [if_pos h, if_neg (by omega : ¬ (0:Int) < -l), neg_neg]
    cases σ l <;> simp

theorem satAssign_edgeSat {cs : List Clause} {σ : Int → Bool}
    (hz : ∀ c ∈ cs, ∀ l ∈ c, l ≠ 0) (hs : SatAssign σ cs) : EdgeSat σ (edgesOf cs) := by
  intro e he hsat1
  rcases mem_edgesOf.mp he with ⟨c, hc, hce⟩
  rcases clauseEdges_cases hce with ⟨x, rfl, hx⟩ | ⟨x, y, rfl, hxy⟩
  · rcases hs _ hc with ⟨l, hl, hsl⟩
    rcases List.mem_singleton.mp hl with rfl
    rcases hx with rfl | rfl
    · exact hsl
    · exact hsat1
  · have hx0 : x ≠ 0 := hz _ hc x (by simp)
    have hy0 : y ≠ 0 := hz _ hc y (by simp)
    rcases hs _ hc with ⟨l, hl, hsl⟩
    rcases hxy with rfl | rfl
    · rcases List.mem_cons.mp hl with rfl | hl
      · exact absurd hsl ((litSat_neg_iff hx0).mp hsat1)
      · rcases List.mem_singleton.mp hl with rfl
        exact hsl
    · rcases List.mem_cons.mp hl with rfl | hl
      · exact hsl
      · rcases List.mem_singleton.mp hl with rfl
        exact absurd hsl ((litSat_neg_iff hy0).mp hsat1)

theorem edgeSat_satAssign {cs : List Clause} {σ : Int → Bool}
    (harity : ∀ c ∈ cs, c.length = 1 ∨ c.length = 2)
    (hz : ∀ c ∈ cs, ∀ l ∈ c, l ≠ 0)
    (he : EdgeSat σ (edgesOf cs)) : SatAssign σ cs := by
  intro c hc
  rcases harity c hc with h1 | h2
  · obtain ⟨x, rfl⟩ := List.length_eq_one.mp h1
    have hx0 : x ≠ 0 := hz _ hc x (by simp)
    have hedge : ((-x : Int), x) ∈ edgesOf cs :=
      mem_edgesOf.mpr ⟨[x], hc, by simp [clauseEdges]⟩
    by_cases hsx : LitSat σ x
    · exact ⟨x, by simp, hsx⟩
    · exact ⟨x, by simp, he _ hedge ((litSat_neg_iff hx0).mpr hsx)⟩
  · obtain ⟨x, y, rfl⟩ := List.length_eq_two.mp h2
    have hx0 : x ≠ 0 := hz _ hc x (by simp)
    have hedge : ((-x : Int), y) ∈ edgesOf cs :=
      mem_edgesOf.mpr ⟨[x, y], hc, by simp [clauseEdges]⟩
    by_cases hsx : LitSat σ x
    · exact ⟨x, by simp, hsx⟩
    · exact ⟨y, by simp, he _ hedge ((litSat_neg_iff hx0).mpr hsx)⟩

theorem reaches_pres_litSat {E : List (Int × Int)} {σ : Int → Bool} (he : EdgeSat σ E)
    {a b : Int} (h : Reaches E a b) (ha : LitSat σ a) : LitSat σ b := by
  induction h with
  | refl => exact ha
  | tail _ hbc ih => exact he _ hbc ih

theorem badVar_unsat {cs : List Clause} (hz : ∀ c ∈ cs, ∀ l ∈ c, l ≠ 0)
    {v : Int} (hb : BadVar cs v) : ¬ TwoSatisfiable cs := by
  rintro ⟨σ, hσ⟩
  obtain ⟨hv, hnv, hr1, hr2⟩ := hb
  have hv0 : v ≠ 0 := mem_nodesOf_nonzero hz hv
  have hes := satAssign_edgeSat hz hσ
  by_cases hsat : LitSat σ v
  · exact (litSat_neg_iff hv0).mp (reaches_pres_litSat hes hr1 hsat) hsat
  · exact hsat (reaches_pres_litSat hes hr2 ((litSat_neg_iff hv0).mpr hsat))

/-! ### Completeness of the SCC criterion and the oracle correctness -/

theorem extend_true_set {E : List (Int × Int)}
    (hskew : ∀ a b : Int, Reaches E a b → Reaches E (-b) (-a))
    (hnb : ∀ v : Int, v ≠ 0 → ¬(Reaches E v (-v) ∧ Reaches E (-v) v)) :
    ∀ (vs : List Int), (∀ v ∈ vs, v ≠ 0) → ∀ (T : Int → Prop),
      (∀ a b : Int, T a → Reaches E a b → T b) → (∀ a : Int, ¬(T a ∧ T (-a))) →
      ∃ T' : Int → Prop, (∀ a, T a → T' a)
        ∧ (∀ a b : Int, T' a → Reaches E a b → T' b)
        ∧ (∀ a : Int, ¬(T' a ∧ T' (-a)))
        ∧ ∀ v ∈ vs, T' v ∨ T' (-v) := by
  intro vs
  induction vs with
  | nil =>
    intro _ T hc hcons
    exact ⟨T, fun _ h => h, hc, hcons, by simp⟩
  | cons v vs ih =>
    intro hvz T hc hcons
    have hv0 : v ≠ 0 := hvz v (List.mem_cons_self v vs)
    have hstep : ∃ T₁ : Int → Prop, (∀ a, T a → T₁ a)
        ∧ (∀ a b : Int, T₁ a → Reaches E a b → T₁ b)
        ∧ (∀ a : Int, ¬(T₁ a ∧ T₁ (-a)))
        ∧ (T₁ v ∨ T₁ (-v)) := by
      by_cases hcov : T v ∨ T (-v)
      · exact ⟨T, fun _ h => h, hc, hcons, hcov⟩
      · push_neg at hcov
        obtain ⟨hTv, hTnv⟩ := hcov
        obtain ⟨l, hlv, hlr⟩ : ∃ l : Int, (l = v ∨ l = -v) ∧ ¬ Reaches E l (-l) := by
          rcases Classical.em (Reaches E v (-v)) with hr | hr
          · refine ⟨-v, Or.inr rfl, ?_⟩
            rw [neg_neg]
            intro hr2
            exact hnb v hv0 ⟨hr, hr2⟩
          · exact ⟨v, Or.inl rfl, hr⟩
        have hTl : ¬ T l := by
          rcases hlv with rfl | rfl
          · exact hTv
          · exact hTnv
        have hTnl : ¬ T (-l) := by
          rcases hlv with rfl | rfl
          · exact hTnv
          · rw [neg_neg]; exact hTv
        refine ⟨fun x => T x ∨ Reaches E l x, fun a ha => Or.inl ha, ?_, ?_, ?_⟩
        · rintro a b (ha | ha) hab
          · exact Or.inl (hc a b ha hab)
          · exact Or.inr (Relation.ReflTransGen.trans ha hab)
        · rintro a ⟨ha | ha, hna | hna⟩
          · exact hcons a ⟨ha, hna⟩
          · have h2 : Reaches E a (-l) := by
              have h3 := hskew _ _ hna
              rwa [neg_neg] at h3
            exact hTnl (hc _ _ ha h2)
          · exact hTnl (hc _ _ hna (hskew _ _ ha))
          · have h2 : Reaches E a (-l) := by
              have h3 := hskew _ _ hna
              rwa [neg_neg] at h3
            exact hlr (Relation.ReflTransGen.trans ha h2)
        · rcases hlv with rfl | rfl
          · exact Or.inl (Or.inr Relation.ReflTransGen.refl)
          · exact Or.inr (Or.inr Relation.ReflTransGen.refl)
    obtain ⟨T₁, hT₁T, hc₁, hcons₁, hv₁⟩ := hstep
    obtain ⟨T', hT'₁, hc', hcons', hcov'⟩ :=
      ih (fun u hu => hvz u (List.mem_cons_of_mem _ hu)) T₁ hc₁ hcons₁
    refine ⟨T', fun a ha => hT'₁ a (hT₁T a ha), hc', hcons', ?_⟩
    intro u hu
    rcases List.mem_cons.mp hu with rfl | hu
    · rcases hv₁ with h | h
      · exact Or.inl (hT'₁ _ h)
      · exact Or.inr (hT'₁ _ h)
    · exact hcov' u hu

theorem no_badVar_satisfiable {cs : List Clause}
    (harity : ∀ c ∈ cs, c.length = 1 ∨ c.length = 2)
    (hz : ∀ c ∈ cs, ∀ l ∈ c, l ≠ 0)
    (hnb : ∀ v : Int, ¬ BadVar cs v) : TwoSatisfiable cs := by
  classical
  have hskew : ∀ a b : Int, Reaches (edgesOf cs) a b → Reaches (edgesOf cs) (-b) (-a) :=
    fun _ _ h => reaches_skew h
  have hnode : ∀ p q : Int, Reaches (edgesOf cs) p q → p ≠ q → p ∈ nodesOf cs := by
    intro p q h hne
    rcases Relation.ReflTransGen.cases_head h with heq | ⟨c, hc, _⟩
    · exact absurd heq hne
    · exact List.mem_dedup.mpr
        (List.mem_append.mpr (Or.inl (List.mem_map.mpr ⟨(p, c), hc, rfl⟩)))
  have hnb' : ∀ v : Int, v ≠ 0 →
      ¬(Reaches (edgesOf cs) v (-v) ∧ Reaches (edgesOf cs) (-v) v) := by
    rintro v hv0 ⟨h1, h2⟩
    exact hnb v ⟨hnode v (-v) h1 (by omega), hnode (-v) v h2 (by omega), h1, h2⟩
  obtain ⟨T', _, hc', hcons', hcov'⟩ :=
    extend_true_set hskew hnb' (nodesOf cs) (fun v hv => mem_nodesOf_nonzero hz hv)
      (fun _ => False) (fun _ _ ha _ => ha.elim) (fun _ h => h.1.elim)
  refine ⟨fun x => if T' x then true else false, ?_⟩
  apply edgeSat_satAssign harity hz
  intro e he hsat1
  have hσ : ∀ x : Int, ((if T' x then true else false) = true) ↔ T' x := by
    intro x
    by_cases h : T' x <;> simp [h]
  have hσ' : ∀ x : Int, ((if T' x then true else false) = false) ↔ ¬ T' x := by
    intro x
    by_cases h : T' x <;> simp [h]
  have h1node : e.1 ∈ nodesOf cs :=
    List.mem_dedup.mpr (List.mem_append.mpr (Or.inl (List.mem_map.mpr ⟨e, he, rfl⟩)))
  have hT1 : T' e.1 := by
    unfold LitSat at hsat1
    by_cases hp : (0:Int) < e.1
    · rw [if_pos hp] at hsat1
      exact (hσ _).mp hsat1
    · rw [if_neg hp] at hsat1
      have hnot : ¬ T' (-e.1) := (hσ' _).mp hsat1
      rcases hcov' _ h1node with h | h
      · exact h
      · exact absurd h hnot
  have hT2 : T' e.2 :=
    hc' _ _ hT1 (Relation.ReflTransGen.single (he : EdgeRel (edgesOf cs) e.1 e.2))
  show LitSat (fun x => if T' x then true else false) e.2
  unfold LitSat
  by_cases hq : (0:Int) < e.2
  · rw [if_pos hq]
    exact (hσ _).mpr hT2
  · rw [if_neg hq]
    exact (hσ' _).mpr fun h => hcons' e.2 ⟨hT2, h⟩

/-- Claim C6: on inputs made of 1- and 2-literal clauses over nonzero
literals, the oracle reports false exactly when some variable and its
negation are both graph nodes and mutually reachable (same SCC), the
verdict true holds exactly when the clause list is satisfiable (the
brute-force ground truth), and the empty list yields true. -/
theorem two_sat_correct (cs : List Clause)
    (h : ∀ c ∈ cs, (c.length = 1 ∨ c.length = 2) ∧ ∀ l ∈ c, l ≠ 0) :
    (two_sat cs = false ↔ ∃ v : Int, 0 < v ∧ BadVar cs v)
    ∧ (two_sat cs = true ↔ TwoSatisfiable cs)
    ∧ two_sat [] = true := by
  have harity : ∀ c ∈ cs, c.length = 1 ∨ c.length = 2 := fun c hc => (h c hc).1
  have hz : ∀ c ∈ cs, ∀ l ∈ c, l ≠ 0 := fun c hc => (h c hc).2
  have hpos : (∃ v, BadVar cs v) ↔ ∃ v : Int, 0 < v ∧ BadVar cs v := by
    constructor
    · rintro ⟨v, hb⟩
      have hv0 : v ≠ 0 := mem_nodesOf_nonzero hz hb.1
      rcases lt_trichotomy 0 v with hv | hv | hv
      · exact ⟨v, hv, hb⟩
      · exact absurd hv.symm hv0
      · obtain ⟨h1, h2, h3, h4⟩ := hb
        refine ⟨-v, by omega, h2, ?_, ?_, ?_⟩
        · rw [neg_neg]; exact h1
        · rw [neg_neg]; exact h4
        · rw [neg_neg]; exact h3
    · rintro ⟨v, _, hb⟩
      exact ⟨v, hb⟩
  refine ⟨by rw [two_sat_eq_false_iff, hpos], ?_, by decide⟩
  constructor
  · intro htrue
    apply no_badVar_satisfiable harity hz
    intro v hb
    have hfalse : two_sat cs = false := (two_sat_eq_false_iff cs).mpr ⟨v, hb⟩
    rw [htrue] at hfalse
    exact Bool.noConfusion hfalse
  · intro hsat
    cases htw : two_sat cs with
    | true => rfl
    | false =>
      rcases (two_sat_eq_false_iff cs).mp htw with ⟨v, hb⟩
      exact absurd hsat (badVar_unsat hz hb)

/-- Witness for C6 at the documented UNSAT instance of two unit clauses. -/
theorem two_sat_correct_witness :
    (∀ c ∈ ([[1], [-1]] : List Clause), (c.length = 1 ∨ c.length = 2) ∧ ∀ l ∈ c, l ≠ 0)
    ∧ ((two_sat [[1], [-1]] = false ↔ ∃ v : Int, 0 < v ∧ BadVar [[1], [-1]] v)
      ∧ (two_sat [[1], [-1]] = true ↔ TwoSatisfiable [[1], [-1]])
      ∧ two_sat [] = true) :=
  ⟨by decide, two_sat_correct _ (by decide)⟩

/-- Witness for C9 at the single clause `(1,2,3)` and the key `(-3,-2)`. -/
theorem bkw_singleton_per_key_witness :
    (((-3, -2), [1]) ∈ (buildState [(1, 2, 3)]).sets_bkw
      ∧ ((((-3, -2), [1]) : Pair × List Int).2.length = 1))
    ∧ ((lookupB (buildState [(1, 2, 3)]).sets_bkw (-3, -2)).isSome
      ∧ lookupB (appendC (buildState [(1, 2, 3)]) (4, 2, 3)).sets_bkw (-3, -2) =
          lookupB (buildState [(1, 2, 3)]).sets_bkw (-3, -2))
    ∧ (lookupB initState.sets_bkw (normPair (-2) (-3)) = none
      ∧ lookupB (appendC initState (1, 2, 3)).sets_bkw (normPair (-2) (-3)) = some [1]) :=
  ⟨⟨by decide, bkw_singleton_per_key.1 [(1, 2, 3)] _ (by decide)⟩,
   ⟨by decide, bkw_singleton_per_key.2.1 _ _ _ (by decide)⟩,
   ⟨by decide, bkw_singleton_per_key.2.2 _ 1 2 3 (by decide)⟩⟩

/-- Witness for the amended C2 theorem at the clause `(1,2,3)`. -/
theorem append_bkw_first_writer_wins_witness :
    ((lookupB (buildState [(1, 2, 3)]).sets_bkw (-3, -2)).isSome
      ∧ lookupB (appendC (buildState [(1, 2, 3)]) (4, 2, 3)).sets_bkw (-3, -2) =
          lookupB (buildState [(1, 2, 3)]).sets_bkw (-3, -2))
    ∧ (lookupB initState.sets_bkw (normPair (-2) (-3)) = none
      ∧ lookupB (appendC initState (1, 2, 3)).sets_bkw (normPair (-2) (-3)) = some [1])
    ∧ (lookupB initState.sets_bkw (normPair (-1) (-2)) = none
      ∧ normPair (-1) (-2) ≠ normPair (-2) (-3)
      ∧ lookupB (appendC initState (1, 2, 3)).sets_bkw (normPair (-1) (-2)) = some [3])
    ∧ (lookupB initState.sets_bkw (normPair (-1) (-3)) = none
      ∧ normPair (-1) (-3) ≠ normPair (-2) (-3)
      ∧ normPair (-1) (-3) ≠ normPair (-1) (-2)
      ∧ lookupB (appendC initState (1, 2, 3)).sets_bkw (normPair (-1) (-3)) = some [2]) :=
  ⟨⟨by decide, append_bkw_first_writer_wins.1 _ _ _ (by decide)⟩,
   ⟨by decide, append_bkw_first_writer_wins.2.1 _ 1 2 3 (by decide)⟩,
   ⟨by decide, by decide, append_bkw_first_writer_wins.2.2.1 _ 1 2 3 (by decide) (by decide)⟩,
   ⟨by decide, by decide, by decide,
     append_bkw_first_writer_wins.2.2.2 _ 1 2 3 (by decide) (by decide) (by decide)⟩⟩

end FastThreeSAT
